import Mathlib

/-!
Verification development for the pin harvesting / enrichment extension.

The JavaScript source is shallowly embedded: pure fragments become Lean
functions, the DOM and the network are abstracted as explicit environment
parameters, JavaScript `Map` accumulators become association lists that
preserve insertion order, and the `while` loops become fuel-indexed
recursions (`none` = fuel exhausted).  JavaScript falsiness of strings
(`""` and `undefined` are falsy) is modelled explicitly.
-/

set_option maxHeartbeats 1000000

namespace PinHelper

/-- A harvested record, as built by `extractVisiblePins` (content.js). -/
structure Pin where
  title : String
  imageUrl : String
  videoUrl : Option String
  link : String
  description : String
  deriving DecidableEq, Repr

namespace Harvest

/-- One step of `addPinsToMap` (content.js line 187-192):
`if (!allPins.has(key)) allPins.set(key, pin)` with `key = pin.link`.
The JS `Map` is modelled as an insertion-ordered association list. -/
def addPinStep (m : List (String × Pin)) (pin : Pin) : List (String × Pin) :=
  if m.any (fun e => e.1 == pin.link) then m else m ++ [(pin.link, pin)]

/-- `addPinsToMap(pins)` from content.js `getPins`: fold the extracted list
into the accumulator, first-seen key wins. -/
def addPinsToMap (m : List (String × Pin)) (pins : List Pin) : List (String × Pin) :=
  pins.foldl addPinStep m

/-- `allPins.has(k)` on the modelled accumulator. -/
def hasKey (m : List (String × Pin)) (k : String) : Bool :=
  m.any (fun e => e.1 == k)

/-- `allPins.get(k)` on the modelled accumulator. -/
def mapGet (m : List (String × Pin)) (k : String) : Option Pin :=
  (m.find? (fun e => e.1 == k)).map (fun e => e.2)

/-- The scroll increment of the harvester loop (content.js line 226-229):
`window.scrollBy({ top: viewportHeight * 0.6 })`. -/
def scrollStep (v : ℚ) : ℚ := v * (6 / 10)

/-- Fuel-indexed model of the `while (true)` loop of `getPins`
(content.js lines 203-236, identically in the part_001 variant at 226-259).

State: `t` counts the reads of `document.body.scrollHeight` (the surface
reports height `heights t` at the t-th read), `pos` is `scrollY`, and
`acc` is the accumulator map.  Per the claim hypothesis, each scroll
advances `pos` by exactly `scrollStep v` where `v` = `window.innerHeight`.
`extract` is the Extractor pass at a given scroll position.

Returns `none` when the fuel runs out, otherwise `some (n, acc)`: the loop
reached its final-extraction exit (final `addPinsToMap(extractVisiblePins())`
then `break`) after `n` further iterations with final accumulator `acc`. -/
def getPinsLoop (heights : ℕ → ℚ) (v : ℚ) (extract : ℚ → List Pin) :
    ℕ → ℕ → ℚ → List (String × Pin) → Option (ℕ × List (String × Pin))
  | 0, _, _, _ => none
  | fuel + 1, t, pos, acc =>
    let docHeight := heights t
    if v + pos ≥ docHeight - 50 then
      -- bottom reached: wait, re-read the height
      let newHeight := heights (t + 1)
      if newHeight > docHeight then
        -- content expanded, continue the loop
        (getPinsLoop heights v extract fuel (t + 2) pos acc).map
          (fun r => (r.1 + 1, r.2))
      else
        -- no new content: final scrape, break
        some (0, addPinsToMap acc (extract pos))
    else
      -- scroll down by 60% of the viewport, wait, scrape at the new position
      (getPinsLoop heights v extract fuel (t + 1) (pos + scrollStep v)
          (addPinsToMap acc (extract (pos + scrollStep v)))).map
        (fun r => (r.1 + 1, r.2))

/-- The iteration bound for the harvester loop: a linear function of the
initial total extent divided by the scroll step. -/
def getPinsBound (h0 v : ℚ) : ℕ := ⌈h0 / scrollStep v⌉₊

end Harvest

namespace Gemini

/-- The relevant parts of one HTTP response from the inference service,
as read by the clients in utils/gemini.js: `response.ok`,
`response.status`, the advisory retry delay parsed from
`data.error?.message?.match(/retry in\s+([0-9.]+)\s*s/)` (in seconds,
`none` when the regex does not match), and
`data.candidates?.[0]?.content?.parts?.[0]?.text` (`none` when absent). -/
structure Response where
  ok : Bool
  status : ℕ
  advisorySeconds : Option ℚ
  text : Option String
  deriving DecidableEq

/-- What one `fetch` attempt does: raise a transport-level exception, or
deliver a response. -/
inductive AttemptOutcome where
  | throws
  | resp (r : Response)
  deriving DecidableEq

/-- Rate-limit wait of `identifyItemWithGemini` (utils/gemini.js 122-127)
and `searchAllShoppingUrlsWithGemini` (229-234), in milliseconds:
`Math.ceil(parseFloat(advice) * 1000) + 1000` when the advisory message
matched, otherwise `2000 * Math.pow(2, attempts)`. -/
def identifyRetryWaitMs (advisorySeconds : Option ℚ) (attempts : ℕ) : ℤ :=
  match advisorySeconds with
  | some s => ⌈s * 1000⌉ + 1000
  | none => 2000 * 2 ^ attempts

/-- Rate-limit wait of `analyzeImageAndGetShoppingLinks`
(utils/gemini.js line 434): always `3000 * Math.pow(2, attempts)`;
this call site never reads the advisory message. -/
def analyzeRetryWaitMs (attempts : ℕ) : ℤ := 3000 * 2 ^ attempts

/-- Wait after a transport-level exception (utils/gemini.js 147, 267, 466):
a fixed 2000 ms. -/
def networkRetryWaitMs : ℤ := 2000

end Gemini

namespace Js

/-- `startsWithChars pat cs`: `cs` begins with the pattern `pat`. -/
def startsWithChars : List Char → List Char → Bool
  | [], _ => true
  | _ :: _, [] => false
  | c :: cs, d :: ds => c == d && startsWithChars cs ds

/-- `containsChars sub cs`: `sub` occurs contiguously in `cs`
(JavaScript `String.prototype.includes`). -/
def containsChars (sub : List Char) : List Char → Bool
  | [] => sub.isEmpty
  | d :: ds => startsWithChars sub (d :: ds) || containsChars sub ds

/-- JavaScript `s.includes(sub)`. -/
def containsStr (s sub : String) : Bool := containsChars sub.toList s.toList

/-- JavaScript `String.prototype.trim` (whitespace modelled by
`Char.isWhitespace`). -/
def trimChars (cs : List Char) : List Char :=
  ((cs.dropWhile Char.isWhitespace).reverse.dropWhile Char.isWhitespace).reverse

/-- JavaScript `s.trim()`. -/
def jsTrim (s : String) : String := String.mk (trimChars s.toList)

/-- First truthy string of a JavaScript `||` chain (empty strings are
falsy); `""` when all are falsy. -/
def firstNonempty (l : List String) : String :=
  (l.find? (fun s => !s.isEmpty)).getD ""

/-- JavaScript `s.split(sep)` for a one-character separator, on character
lists (splitting `""` yields `[""]`, as in JavaScript). -/
def splitOnChar (sep : Char) : List Char → List (List Char)
  | [] => [[]]
  | c :: rest =>
    if c == sep then [] :: splitOnChar sep rest
    else
      match splitOnChar sep rest with
      | [] => [[c]]
      | w :: ws => (c :: w) :: ws

end Js

namespace Json

/-- JSON values, as produced by `JSON.parse`. -/
inductive Value where
  | null
  | bool (b : Bool)
  | num (q : ℚ)
  | str (s : String)
  | arr (elems : List Value)
  | obj (members : List (String × Value))

/-- JSON insignificant whitespace. -/
def isJsonWs (c : Char) : Bool :=
  c == ' ' || c == '\t' || c == '\n' || c == '\r'

/-- Skip insignificant whitespace. -/
def skipWs (cs : List Char) : List Char := cs.dropWhile isJsonWs

/-- Numeric value of an ASCII digit. -/
def digitVal (c : Char) : ℕ := c.toNat - 48

/-- One or more decimal digits; returns their value, their count and the
remaining input. -/
def parseDigits (cs : List Char) : Option (ℕ × ℕ × List Char) :=
  let ds := cs.takeWhile Char.isDigit
  if ds.isEmpty then none
  else some (ds.foldl (fun n c => 10 * n + digitVal c) 0, ds.length, cs.drop ds.length)

/-- The JSON integer part: `0` or a nonzero digit followed by digits
(leading zeros are a syntax error, as in `JSON.parse`). -/
def parseIntPart (cs : List Char) : Option (ℕ × List Char) :=
  match cs with
  | '0' :: rest =>
    if (rest.head?.map Char.isDigit).getD false then none else some (0, rest)
  | _ => (parseDigits cs).map (fun r => (r.1, r.2.2))

/-- The optional JSON fraction part `.digits`; its rational value. -/
def parseFracPart : List Char → Option (ℚ × List Char)
  | '.' :: rest =>
    match parseDigits rest with
    | none => none
    | some (f, k, rest2) => some ((f : ℚ) / (10 : ℚ) ^ k, rest2)
  | cs => some (0, cs)

/-- The optional JSON exponent part `[eE][+-]?digits`. -/
def parseExpPart : List Char → Option (ℤ × List Char)
  | c :: rest =>
    if c == 'e' || c == 'E' then
      let signed : ℤ × List Char :=
        match rest with
        | '+' :: r2 => (1, r2)
        | '-' :: r2 => (-1, r2)
        | _ => (1, rest)
      match parseDigits signed.2 with
      | none => none
      | some (e, _, rest2) => some (signed.1 * e, rest2)
    else some (0, c :: rest)
  | [] => some (0, [])

/-- A JSON number (sign, integer, fraction, exponent) and its value. -/
def parseNumber (cs : List Char) : Option (ℚ × List Char) :=
  let signed : ℚ × List Char :=
    match cs with
    | '-' :: r => (-1, r)
    | _ => (1, cs)
  match parseIntPart signed.2 with
  | none => none
  | some (ip, cs2) =>
    match parseFracPart cs2 with
    | none => none
    | some (fr, cs3) =>
      match parseExpPart cs3 with
      | none => none
      | some (e, cs4) => some (signed.1 * ((ip : ℚ) + fr) * (10 : ℚ) ^ e, cs4)

/-- Value of a hexadecimal digit, if any. -/
def hexVal (c : Char) : Option ℕ :=
  if c.isDigit then some (c.toNat - 48)
  else if 'a' ≤ c ∧ c ≤ 'f' then some (c.toNat - 87)
  else if 'A' ≤ c ∧ c ≤ 'F' then some (c.toNat - 55)
  else none

/-- A single-character JSON escape. -/
def escapeChar (c : Char) : Option Char :=
  match c with
  | '"' => some '"'
  | '\\' => some '\\'
  | '/' => some '/'
  | 'b' => some (Char.ofNat 8)
  | 'f' => some (Char.ofNat 12)
  | 'n' => some '\n'
  | 'r' => some '\r'
  | 't' => some '\t'
  | _ => none

/-- The body of a JSON string after the opening quote, up to and
including the closing quote; raw control characters are a syntax error.
Fuel-indexed; `cs.length + 1` fuel always suffices (each step consumes at
least one character). -/
def parseStringBody : ℕ → List Char → Option (List Char × List Char)
  | 0, _ => none
  | _ + 1, [] => none
  | fuel + 1, c :: rest =>
    if c == '"' then some ([], rest)
    else if c == '\\' then
      match rest with
      | 'u' :: h1 :: h2 :: h3 :: h4 :: rest2 =>
        match hexVal h1, hexVal h2, hexVal h3, hexVal h4 with
        | some a, some b, some c2, some d =>
          (parseStringBody fuel rest2).map
            (fun r => (Char.ofNat (((a * 16 + b) * 16 + c2) * 16 + d) :: r.1, r.2))
        | _, _, _, _ => none
      | e :: rest2 =>
        match escapeChar e with
        | some c2 => (parseStringBody fuel rest2).map (fun r => (c2 :: r.1, r.2))
        | none => none
      | [] => none
    else if c.toNat < 32 then none
    else (parseStringBody fuel rest).map (fun r => (c :: r.1, r.2))

mutual

/-- A JSON value (fuel-indexed recursive-descent parser modelling
`JSON.parse`; `2 * length + 2` fuel always suffices because at least one
character is consumed for every two fuel units spent). -/
def parseValue : ℕ → List Char → Option (Value × List Char)
  | 0, _ => none
  | fuel + 1, cs =>
    match skipWs cs with
    | 'n' :: 'u' :: 'l' :: 'l' :: rest => some (.null, rest)
    | 't' :: 'r' :: 'u' :: 'e' :: rest => some (.bool true, rest)
    | 'f' :: 'a' :: 'l' :: 's' :: 'e' :: rest => some (.bool false, rest)
    | '"' :: rest =>
      (parseStringBody (rest.length + 1) rest).map
        (fun r => (.str (String.mk r.1), r.2))
    | '[' :: rest =>
      match skipWs rest with
      | ']' :: rest2 => some (.arr [], rest2)
      | _ =>
        match parseElems fuel rest with
        | some (xs, rest2) => some (.arr xs, rest2)
        | none => none
    | '{' :: rest =>
      match skipWs rest with
      | '}' :: rest2 => some (.obj [], rest2)
      | _ =>
        match parseMembers fuel rest with
        | some (ms, rest2) => some (.obj ms, rest2)
        | none => none
    | cs2 => (parseNumber cs2).map (fun r => (.num r.1, r.2))

/-- A comma-separated list of JSON values followed by `]`. -/
def parseElems : ℕ → List Char → Option (List Value × List Char)
  | 0, _ => none
  | fuel + 1, cs =>
    match parseValue fuel cs with
    | none => none
    | some (v, rest) =>
      match skipWs rest with
      | ',' :: rest2 =>
        match parseElems fuel rest2 with
        | some (xs, rest3) => some (v :: xs, rest3)
        | none => none
      | ']' :: rest2 => some ([v], rest2)
      | _ => none

/-- A comma-separated list of JSON `"key": value` members followed by `}`. -/
def parseMembers : ℕ → List Char → Option (List (String × Value) × List Char)
  | 0, _ => none
  | fuel + 1, cs =>
    match skipWs cs with
    | '"' :: rest =>
      match parseStringBody (rest.length + 1) rest with
      | none => none
      | some (key, rest2) =>
        match skipWs rest2 with
        | ':' :: rest3 =>
          match parseValue fuel rest3 with
          | none => none
          | some (v, rest4) =>
            match skipWs rest4 with
            | ',' :: rest5 =>
              match parseMembers fuel rest5 with
              | some (ms, rest6) => some ((String.mk key, v) :: ms, rest6)
              | none => none
            | '}' :: rest5 => some ([(String.mk key, v)], rest5)
            | _ => none
        | _ => none
    | _ => none

end

/-- `JSON.parse`: parse one value and require only whitespace to follow;
`none` models a thrown `SyntaxError`. -/
def jsonParse (s : String) : Option Value :=
  match parseValue (2 * s.length + 2) s.toList with
  | some (v, rest) => if (skipWs rest).isEmpty then some v else none
  | none => none

end Json

namespace Gemini

/-- `text.match(/\[[\s\S]*\]/)` (utils/gemini.js 250, 449): the regex is
greedy, so the (single) match runs from the first `[` in the text to the
last `]`; there is a match exactly when some `]` occurs after the first
`[`. -/
def bracketFragment (s : String) : Option String :=
  let cs := s.toList
  match cs.findIdx? (fun c => c == '[') with
  | none => none
  | some i =>
    match cs.reverse.findIdx? (fun c => c == ']') with
    | none => none
    | some rj =>
      let j := cs.length - 1 - rj
      if i < j then some (String.mk ((cs.drop i).take (j - i + 1))) else none

/-- The response-parsing step of `analyzeImageAndGetShoppingLinks`
(utils/gemini.js 448-459): extract the bracketed fragment, `JSON.parse`
it, and return the parsed value only if it is a non-empty array;
any parse error or other shape yields `null`. -/
def parseShoppingLinksText (text : String) : Option (List Json.Value) :=
  match bracketFragment text with
  | none => none
  | some frag =>
    match Json.jsonParse frag with
    | some (Json.Value.arr elems) => if elems.isEmpty then none else some elems
    | _ => none

/-- The `while (attempts < maxAttempts)` loop of
`analyzeImageAndGetShoppingLinks` (utils/gemini.js 421-468).

`env i` is what the fetch on attempt counter `i` does; `rem` is
`maxAttempts - attempts`.  Returns the list of waits performed (ms) and
the returned value (`none` = `null`).  Every exception a primitive can
raise is an `AttemptOutcome.throws` handled by the loop's own
`try/catch`, exactly as in the source, so the function is total: the
caller can never observe an exception. -/
def analyzeLoop (env : ℕ → AttemptOutcome) : ℕ → ℕ → List ℤ × Option (List Json.Value)
  | 0, _ => ([], none)
  | rem + 1, attempts =>
    match env attempts with
    | AttemptOutcome.throws =>
      -- catch: attempts++; if (attempts >= maxAttempts) return null; wait 2000
      if rem = 0 then ([], none)
      else
        let r := analyzeLoop env rem (attempts + 1)
        (networkRetryWaitMs :: r.1, r.2)
    | AttemptOutcome.resp resp =>
      if resp.ok then
        ([], match resp.text with
             | some t => if t.isEmpty then none else parseShoppingLinksText t
             | none => none)
      else if resp.status = 429 then
        let r := analyzeLoop env rem (attempts + 1)
        (analyzeRetryWaitMs attempts :: r.1, r.2)
      else
        ([], none)

/-- `analyzeImageAndGetShoppingLinks(base64Data, apiKey, preferences)`
(utils/gemini.js 369-474): guard clause for missing key or payload, then
the retry loop with `maxAttempts = 4`; the outer `try/catch` also returns
`null`.  The network is abstracted as `env`. -/
def analyzeImageAndGetShoppingLinks (env : ℕ → AttemptOutcome)
    (base64Data apiKey : String) : List ℤ × Option (List Json.Value) :=
  if apiKey.isEmpty || base64Data.isEmpty then ([], none)
  else analyzeLoop env 4 0

/-- The value returned by a successful `identifyItemWithGemini` call:
`{ text: text.trim(), base64Data }` (utils/gemini.js 141). -/
structure IdentifyResult where
  text : String
  base64Data : String
  deriving DecidableEq

/-- The `while (attempts < maxAttempts)` loop of `identifyItemWithGemini`
(utils/gemini.js 107-149); same shape as `analyzeLoop` but the 429 wait
uses the advisory message when present, and a successful response yields
`text ? { text: text.trim(), base64Data } : null`. -/
def identifyLoop (env : ℕ → AttemptOutcome) (base64Data : String) :
    ℕ → ℕ → List ℤ × Option IdentifyResult
  | 0, _ => ([], none)
  | rem + 1, attempts =>
    match env attempts with
    | AttemptOutcome.throws =>
      if rem = 0 then ([], none)
      else
        let r := identifyLoop env base64Data rem (attempts + 1)
        (networkRetryWaitMs :: r.1, r.2)
    | AttemptOutcome.resp resp =>
      if resp.ok then
        ([], match resp.text with
             | some t =>
               if t.isEmpty then none
               else some { text := Js.jsTrim t, base64Data := base64Data }
             | none => none)
      else if resp.status = 429 then
        let r := identifyLoop env base64Data rem (attempts + 1)
        (identifyRetryWaitMs resp.advisorySeconds attempts :: r.1, r.2)
      else
        ([], none)

/-- What the image-payload preparation of `identifyItemWithGemini`
(utils/gemini.js 20-81: fetch, decode, resize, re-encode) produced:
`ok` with the base64 data, or a raised error (fetch failure or
`img.onerror`), which the outer `try/catch` turns into `null`. -/
inductive PayloadOutcome where
  | fail
  | ok (base64Data : String)
  deriving DecidableEq

/-- `identifyItemWithGemini(imageUrl, apiKey)` (utils/gemini.js 14-157):
missing key yields `null`; a payload-preparation failure raises inside
the outer `try` and its `catch` yields `null`; otherwise the retry loop
runs with `maxAttempts = 3`. -/
def identifyItemWithGemini (env : ℕ → AttemptOutcome)
    (payload : PayloadOutcome) (apiKey : String) : List ℤ × Option IdentifyResult :=
  if apiKey.isEmpty then ([], none)
  else
    match payload with
    | PayloadOutcome.fail => ([], none)
    | PayloadOutcome.ok base64Data => identifyLoop env base64Data 3 0

end Gemini

namespace Extract

/-- The attributes of an `<img>` element read by the Extractor.
`none` models an absent attribute / `undefined`. -/
structure ImgEl where
  dataPinMedia : Option String
  dataSrc : Option String
  currentSrc : Option String
  src : Option String
  srcset : Option String
  alt : Option String
  ariaLabel : Option String
  deriving DecidableEq

/-- A `<source>` element nested in a `<video>`. -/
structure VideoSource where
  src : Option String
  deriving DecidableEq

/-- A `<video>` element of a card. -/
structure VideoEl where
  src : Option String
  sources : List VideoSource
  deriving DecidableEq

/-- One `a[href*="/pin/"]` anchor together with what the card lookups
around it return: the first matching title element's text, the first
matching description element's text, the card's images and its first
video (all `querySelector` results, `none` when absent). -/
structure AnchorEl where
  href : String
  ariaLabel : Option String
  titleText : Option String
  descriptionText : Option String
  images : List ImgEl
  video : Option VideoEl
  deriving DecidableEq

/-- What the browser's `new URL(s, location.origin)` yields. -/
structure UrlParts where
  href : String
  hostname : String
  deriving DecidableEq

/-- The rendered surface as the Extractor sees it: the matched anchors,
`window.location.pathname`, and the browser URL parser (`parseUrl s`
models `new URL(s, location.origin)`; `none` models a thrown
`TypeError`). -/
structure PageEnv where
  anchors : List AnchorEl
  pathname : String
  parseUrl : String → Option UrlParts

/-- `opt?.trim()` used inside a `||` chain: an absent string is falsy,
so it contributes `""`. -/
def optTrim (a : Option String) : String := (a.map Js.jsTrim).getD ""

/-- `normalizeUrl(href)` (content.js 8-14): the absolute `href` of the
resolved URL, or `null` when the constructor throws. -/
def normalizeUrl (env : PageEnv) (href : String) : Option String :=
  (env.parseUrl href).map UrlParts.href

/-- `/\/pin\/\d+/` tested at one position: `/pin/` followed by a digit. -/
def pinPatternAt : List Char → Bool
  | '/' :: 'p' :: 'i' :: 'n' :: '/' :: d :: _ => d.isDigit
  | _ => false

/-- `PIN_LINK_PATTERN.test(s)` with `PIN_LINK_PATTERN = /\/pin\/\d+/`
(content.js 1, 73). -/
def pinLinkTestChars : List Char → Bool
  | [] => false
  | c :: rest => pinPatternAt (c :: rest) || pinLinkTestChars rest

/-- `PIN_LINK_PATTERN.test(s)`. -/
def pinLinkTest (s : String) : Bool := pinLinkTestChars s.toList

/-- `resolveImageUrl(imageElement)` (content.js 24-35): the first truthy
of `dataset.pinMedia`, `dataset.src`, `currentSrc`, `src` and the last
trimmed `srcset` entry. -/
def resolveImageUrl (img : ImgEl) : String :=
  let fromSrcSet := String.mk (Js.trimChars
    (((Js.splitOnChar ',' (img.srcset.getD "").toList).getLast?).getD []))
  Js.firstNonempty [img.dataPinMedia.getD "", img.dataSrc.getD "",
    img.currentSrc.getD "", img.src.getD "", fromSrcSet]

/-- `resolveItemTitle({imageElement, cardTitle, anchor})`
(content.js 37-49). -/
def resolveItemTitle (img : ImgEl) (cardTitle : String) (anchor : AnchorEl) : String :=
  Js.firstNonempty [optTrim img.alt, optTrim img.ariaLabel,
    optTrim anchor.ariaLabel, cardTitle]

/-- `shouldIncludeImage(imageUrl)` (content.js 51-62): non-empty, parses
as a URL, and the hostname includes `"pinimg.com"`. -/
def shouldIncludeImage (env : PageEnv) (imageUrl : String) : Bool :=
  if imageUrl.isEmpty then false
  else
    match env.parseUrl imageUrl with
    | none => false
    | some parts => Js.containsStr parts.hostname "pinimg.com"

/-- Lower-case every character (the `/i` regex flag). -/
def lowerChars (cs : List Char) : List Char := cs.map Char.toLower

/-- `text.replace(/^PAT[:\s]*/i, "")` for a literal pattern `pat` given in
lower case: when the text starts with the pattern (case-insensitively),
drop it together with the following run of colons and whitespace. -/
def stripLeadingPhrase (pat : List Char) (cs : List Char) : List Char :=
  if Js.startsWithChars pat (lowerChars cs) then
    (cs.drop pat.length).dropWhile (fun c => c == ':' || c.isWhitespace)
  else cs

/-- `text.replace(/PAT\.?/i, "")` for a literal pattern `pat` given in
lower case: remove the first (case-insensitive) occurrence together with
one following period, if present. -/
def removePhraseOnce (pat : List Char) : List Char → List Char
  | [] => []
  | c :: rest =>
    if Js.startsWithChars pat (lowerChars (c :: rest)) then
      match (c :: rest).drop pat.length with
      | '.' :: after => after
      | after => after
    else c :: removePhraseOnce pat rest

/-- `.replace(/[:\-\|]/g, " ")` (content.js 112). -/
def mapPunctToSpace (cs : List Char) : List Char :=
  cs.map (fun c => if c == ':' || c == '-' || c == '|' then ' ' else c)

/-- Maximal whitespace-separated words of a character list (fuel-indexed;
`length + 1` fuel always suffices). -/
def wordsOfAux : ℕ → List Char → List (List Char)
  | 0, _ => []
  | n + 1, cs =>
    match cs.dropWhile Char.isWhitespace with
    | [] => []
    | c :: rest =>
      ((c :: rest).takeWhile (fun d => !d.isWhitespace)) ::
        wordsOfAux n ((c :: rest).dropWhile (fun d => !d.isWhitespace))

/-- The whitespace-separated words of a character list. -/
def wordsOf (cs : List Char) : List (List Char) := wordsOfAux (cs.length + 1) cs

/-- Join words with single spaces.  `.replace(/\s+/g, " ").trim()`
equals `joinWords (wordsOf ...)`, and `.split(" ")` on such a normalized
string recovers the word list, so the `split/slice/join` of the source is
modelled by `joinWords (take n words)`. -/
def joinWords : List (List Char) → List Char
  | [] => []
  | [w] => w
  | w :: ws => w ++ ' ' :: joinWords ws

/-- `generateSmartTitle(text)` of content.js (lines 106-119): strip the
two boilerplate prefixes, delete one `No description available.`, map
`[:\-\|]` to spaces, collapse whitespace and trim; `null` when empty or
shorter than 2; otherwise the first 5 words. -/
def generateSmartTitleV1 (text : String) : Option String :=
  if text.isEmpty then none
  else
    let cs1 := stripLeadingPhrase ("this contains an image of".toList) text.toList
    let cs2 := stripLeadingPhrase ("image of".toList) cs1
    let cs3 := removePhraseOnce ("no description available".toList) cs2
    let ws := wordsOf (mapPunctToSpace cs3)
    if (joinWords ws).length < 2 then none
    else some (String.mk (joinWords (ws.take 5)))

/-- The expansions of `/^This (may )?contain(s)?( an)? image of/i`
(part_001 line 112). -/
def containPhraseForms : List (List Char) :=
  [("this contain image of").toList,
   ("this contains image of").toList,
   ("this contain an image of").toList,
   ("this contains an image of").toList,
   ("this may contain image of").toList,
   ("this may contains image of").toList,
   ("this may contain an image of").toList,
   ("this may contains an image of").toList]

/-- The `genericPatterns` list of the part_001 `generateSmartTitle`
(lines 111-117), each an anchored case-insensitive prefix. -/
def genericPatternsV2 : List (List Char) :=
  containPhraseForms ++
    [("image of").toList, ("no description available").toList,
     ("pixel data").toList, ("via @").toList]

/-- `genericPatterns.some(p => p.test(text))` for the part_001 variant. -/
def matchesGenericV2 (cs : List Char) : Bool :=
  genericPatternsV2.any (fun pat => Js.startsWithChars pat (lowerChars cs))

/-- `generateSmartTitle(text)` of part_001 (lines 107-130): `null` for
empty text or any generic-pattern match; otherwise clean and return the
first 6 words. -/
def generateSmartTitleV2 (text : String) : Option String :=
  if text.isEmpty then none
  else if matchesGenericV2 text.toList then none
  else
    let ws := wordsOf (mapPunctToSpace text.toList)
    if (joinWords ws).length < 2 then none
    else some (String.mk (joinWords (ws.take 6)))

/-- JavaScript `\w`. -/
def isWordChar (c : Char) : Bool := c.isAlphanum || c == '_'

/-- `.replace(/\b\w/g, c => c.toUpperCase())`: upper-case every
word-initial character. -/
def titleCaseAux (prevIsWord : Bool) : List Char → List Char
  | [] => []
  | c :: rest =>
    (if isWordChar c && !prevIsWord then c.toUpper else c) ::
      titleCaseAux (isWordChar c) rest

/-- `getBoardName()` of content.js (lines 123-131): the second non-empty
path segment, dashes to spaces, title-cased; `"Pinterest"` otherwise. -/
def getBoardNameV1 (pathname : String) : String :=
  match (Js.splitOnChar '/' pathname.toList).filter (fun p => !p.isEmpty) with
  | _ :: second :: _ =>
    String.mk (titleCaseAux false
      (second.map (fun c => if c == '-' then ' ' else c)))
  | _ => "Pinterest"

/-- `getBoardName()` of part_001 (lines 133-141): the second non-empty
path segment, dashes to spaces, first character upper-cased;
`"Pinterest"` otherwise. -/
def getBoardNameV2 (pathname : String) : String :=
  match (Js.splitOnChar '/' pathname.toList).filter (fun p => !p.isEmpty) with
  | _ :: second :: _ =>
    match second.map (fun c => if c == '-' then ' ' else c) with
    | [] => ""
    | c :: rest => String.mk (c.toUpper :: rest)
  | _ => "Pinterest"

/-- `/^This contains an image of[:\s]*$/i` (content.js 145): the whole
string is the phrase followed by colons/whitespace. -/
def isOnlyImagePhrase (cs : List Char) : Bool :=
  let pat := ("this contains an image of").toList
  Js.startsWithChars pat (lowerChars cs) &&
    ((cs.drop pat.length).dropWhile (fun c => c == ':' || c.isWhitespace)).isEmpty

/-- The video-URL logic shared by both variants (content.js 152-167):
prefer `video.src` or the first nested source unless it is a `blob:`
reference, else the first non-blob nested source. -/
def resolveVideoUrl (video : Option VideoEl) : Option String :=
  match video with
  | none => none
  | some v =>
    let rawUrl := Js.firstNonempty [v.src.getD "",
      ((v.sources.head?.map VideoSource.src).getD none).getD ""]
    if !rawUrl.isEmpty && !Js.startsWithChars ("blob:").toList rawUrl.toList then
      some rawUrl
    else
      match v.sources.find? (fun s =>
        match s.src with
        | some u => !u.isEmpty && !Js.startsWithChars ("blob:").toList u.toList
        | none => false) with
      | some s => s.src
      | none => none

/-- The record built for one qualifying image by the content.js
`extractVisiblePins` (lines 99-175): smart title with board-name
fallback, description with the `No description available.` default. -/
def buildPinV1 (env : PageEnv) (anchor : AnchorEl) (absoluteUrl : String)
    (baseTitle description : String) (img : ImgEl) (imageUrl : String) : Pin :=
  let itemTitle := resolveItemTitle img baseTitle anchor
  let smartTitle :=
    match generateSmartTitleV1 (Js.firstNonempty [itemTitle, baseTitle]) with
    | some t => t
    | none => getBoardNameV1 env.pathname ++ " Pin"
  let cleanDesc0 := Js.firstNonempty [description,
    (if !itemTitle.isEmpty && itemTitle != smartTitle then itemTitle else ""),
    img.alt.getD ""]
  let cleanDesc := if isOnlyImagePhrase cleanDesc0.toList then "" else cleanDesc0
  let fullDescription :=
    if cleanDesc.isEmpty then "No description available." else cleanDesc
  { title := smartTitle, imageUrl := imageUrl,
    videoUrl := resolveVideoUrl anchor.video, link := absoluteUrl,
    description := fullDescription }

/-- Is the (trimmed) description generic boilerplate?  part_001 lines
155-158: `^This (may )?contain(s)?( an)? image of`, `^Image of` or
`^via @`, case-insensitive. -/
def descGenericV2 (cs : List Char) : Bool :=
  (containPhraseForms ++ [("image of").toList, ("via @").toList]).any
    (fun pat => Js.startsWithChars pat (lowerChars cs))

/-- The record built for one qualifying image by the part_001
`extractVisiblePins` (lines 99-188). -/
def buildPinV2 (env : PageEnv) (anchor : AnchorEl) (absoluteUrl : String)
    (baseTitle description : String) (img : ImgEl) (imageUrl : String) : Pin :=
  let itemTitle := resolveItemTitle img baseTitle anchor
  let smartTitle :=
    match generateSmartTitleV2 (Js.firstNonempty [itemTitle, baseTitle]) with
    | some t => t
    | none => getBoardNameV2 env.pathname ++ " Pin"
  let cleanDesc0 := Js.firstNonempty [description,
    (if !itemTitle.isEmpty && itemTitle != smartTitle then itemTitle else "")]
  let cleanDesc := if descGenericV2 cleanDesc0.toList then "" else cleanDesc0
  { title := smartTitle, imageUrl := imageUrl,
    videoUrl := resolveVideoUrl anchor.video, link := absoluteUrl,
    description := cleanDesc }

/-- The `imageElements.forEach` body shared by both extractors
(content.js 93-176): resolve the image URL, apply the media-host filter,
and build the record; `none` = the candidate was discarded. -/
def imagePin (build : PageEnv → AnchorEl → String → String → String → ImgEl → String → Pin)
    (env : PageEnv) (anchor : AnchorEl) (absoluteUrl baseTitle description : String)
    (img : ImgEl) : Option Pin :=
  if !shouldIncludeImage env (resolveImageUrl img) then none
  else some (build env anchor absoluteUrl baseTitle description img (resolveImageUrl img))

/-- The per-anchor body shared by both extractors: resolve and test the
link, read the card texts, then emit one record per qualifying image. -/
def anchorPins (build : PageEnv → AnchorEl → String → String → String → ImgEl → String → Pin)
    (env : PageEnv) (anchor : AnchorEl) : List Pin :=
  match normalizeUrl env anchor.href with
  | none => []
  | some absoluteUrl =>
    if !pinLinkTest absoluteUrl then []
    else
      anchor.images.filterMap
        (imagePin build env anchor absoluteUrl
          (Js.firstNonempty [optTrim anchor.titleText, optTrim anchor.ariaLabel])
          (optTrim anchor.descriptionText))

/-- `extractVisiblePins()` of content.js (lines 65-180). -/
def extractVisiblePinsV1 (env : PageEnv) : List Pin :=
  env.anchors.flatMap (anchorPins buildPinV1 env)

/-- `extractVisiblePins()` of part_001 (lines 65-192). -/
def extractVisiblePinsV2 (env : PageEnv) : List Pin :=
  env.anchors.flatMap (anchorPins buildPinV2 env)

end Extract

namespace Orchestrator

/-- One `{item, exact_url, preferred_url?}` entry of the unified
enrichment response (background script part_000, lines 66-76). -/
structure UnifiedEntry where
  item : String
  exactUrl : String
  preferredUrl : Option String
  deriving DecidableEq

/-- What the external world does for one record of the export loop
(part_000 lines 38-91): the image download result
(`downloadImageAsBase64`, `none` = failure logged at line 51), whether
processing raises an exception (caught at line 89), the unified
enrichment result (`analyzeImageAndGetShoppingLinks`, `none` = `null`),
and the Lens fallback text (`fetchLensResult`, `none` = no usable
result). -/
structure ItemEnv where
  payload : Option String
  throwsDuringProcessing : Bool
  analyzeResult : Option (List UnifiedEntry)
  lensText : Option String
  deriving DecidableEq

/-- A record as it appears in `processedPins`: the original pin plus the
enrichment fields the loop may attach (`lensResult`, `shoppingLinks`,
`preferredLinks`). -/
structure ProcessedPin (α : Type) where
  pin : α
  lensResult : Option String
  shoppingLinks : Option (List (String × String))
  preferredLinks : Option (List (String × String))
  deriving DecidableEq

/-- `unifiedData.map(d => d.item).join(", ")` (part_000 line 69). -/
def joinItems (entries : List UnifiedEntry) : String :=
  String.intercalate ", " (entries.map UnifiedEntry.item)

/-- The body of one iteration of the export loop (part_000 lines 38-93):
`none` means the iteration hit the `continue` at line 52 (image payload
unobtainable on the Gemini path) so the pin is NOT pushed onto
`processedPins`; `some r` is the pushed record.  An exception anywhere in
the `try` block is caught at line 89 and the pin is still pushed,
unenriched. -/
def processOne {α : Type} (useGemini : Bool) (preferences : String)
    (e : ItemEnv) (pin : α) : Option (ProcessedPin α) :=
  if useGemini then
    match e.payload with
    | none => none
    | some _ =>
      if e.throwsDuringProcessing then some ⟨pin, none, none, none⟩
      else
        match e.analyzeResult with
        | some entries =>
          if entries.isEmpty then some ⟨pin, none, none, none⟩
          else
            some ⟨pin, some (joinItems entries),
              some (entries.map (fun d => (d.item, d.exactUrl))),
              if preferences.isEmpty then none
              else some ((entries.filter (fun d => d.preferredUrl.isSome)).map
                (fun d => (d.item, d.preferredUrl.getD "")))⟩
        | none => some ⟨pin, none, none, none⟩
  else
    if e.throwsDuringProcessing then some ⟨pin, none, none, none⟩
    else
      match e.lensText with
      | some t => some ⟨pin, some t, none, none⟩
      | none => some ⟨pin, none, none, none⟩

/-- The `for` loop of `startBackgroundExport` (part_000 lines 34-94),
iterating the selected records in order with index `i`; the inter-item
pacing delays do not affect the produced list and are not modelled. -/
def startBackgroundExport {α : Type} (useGemini : Bool) (preferences : String)
    (env : ℕ → ItemEnv) : List α → ℕ → List (ProcessedPin α)
  | [], _ => []
  | pin :: rest, i =>
    match processOne useGemini preferences (env i) pin with
    | none => startBackgroundExport useGemini preferences env rest (i + 1)
    | some r => r :: startBackgroundExport useGemini preferences env rest (i + 1)

/-- Modelled from the spec (for comparison in the refinement statement):
the records the spec says survive the loop — on the Gemini path exactly
those whose image payload was obtained; on the Lens path all of them. -/
def keptPins {α : Type} (useGemini : Bool) (env : ℕ → ItemEnv) :
    List α → ℕ → List α
  | [], _ => []
  | pin :: rest, i =>
    if useGemini && (env i).payload.isNone then keptPins useGemini env rest (i + 1)
    else pin :: keptPins useGemini env rest (i + 1)

end Orchestrator

/-! ## Theorems -/

namespace Harvest

theorem hasKey_addPinStep_self (m : List (String × Pin)) (pin : Pin) :
    hasKey (addPinStep m pin) pin.link = true := by
  unfold hasKey addPinStep
  by_cases h : m.any (fun e => e.1 == pin.link)
  · rw [if_pos h]; exact h
  · rw [if_neg h, List.any_append]
    simp

theorem hasKey_addPinStep_mono (m : List (String × Pin)) (pin : Pin) (k : String)
    (h : hasKey m k = true) : hasKey (addPinStep m pin) k = true := by
  unfold hasKey addPinStep
  split
  · exact h
  · rw [List.any_append]
    simp [hasKey] at h
    simp [h]

theorem hasKey_addPinsToMap_mono (pins : List Pin) (m : List (String × Pin)) (k : String)
    (h : hasKey m k = true) : hasKey (addPinsToMap m pins) k = true := by
  induction pins generalizing m with
  | nil => exact h
  | cons p ps ih =>
    simp only [addPinsToMap, List.foldl_cons]
    exact ih (addPinStep m p) (hasKey_addPinStep_mono m p k h)

theorem hasKey_addPinsToMap_of_mem (pins : List Pin) (m : List (String × Pin))
    (pin : Pin) (h : pin ∈ pins) : hasKey (addPinsToMap m pins) pin.link = true := by
  induction pins generalizing m with
  | nil => cases h
  | cons p ps ih =>
    simp only [addPinsToMap, List.foldl_cons]
    rcases List.mem_cons.mp h with rfl | hmem
    · exact hasKey_addPinsToMap_mono ps _ _ (hasKey_addPinStep_self m pin)
    · exact ih _ hmem

theorem addPinStep_eq_of_hasKey (m : List (String × Pin)) (pin : Pin)
    (h : hasKey m pin.link = true) : addPinStep m pin = m := by
  unfold addPinStep
  exact if_pos h

theorem addPinsToMap_eq_of_all (pins : List Pin) (m : List (String × Pin))
    (h : ∀ pin ∈ pins, hasKey m pin.link = true) : addPinsToMap m pins = m := by
  induction pins with
  | nil => rfl
  | cons p ps ih =>
    simp only [addPinsToMap, List.foldl_cons]
    rw [addPinStep_eq_of_hasKey m p (h p (List.mem_cons_self p ps))]
    exact ih (fun q hq => h q (List.mem_cons_of_mem p hq))

theorem find?_append_of_some {α : Type} (l l2 : List α) (f : α → Bool) (x : α)
    (h : l.find? f = some x) : (l ++ l2).find? f = some x := by
  induction l with
  | nil => simp at h
  | cons a as ih =>
    rw [List.cons_append]
    by_cases ha : f a
    · rw [List.find?_cons_of_pos _ ha] at h ⊢
      exact h
    · rw [List.find?_cons_of_neg _ (by simpa using ha)] at h ⊢
      exact ih h

theorem mapGet_addPinStep (m : List (String × Pin)) (pin : Pin) (k : String) (p : Pin)
    (h : mapGet m k = some p) : mapGet (addPinStep m pin) k = some p := by
  unfold addPinStep
  split
  · exact h
  · unfold mapGet at h ⊢
    rcases Option.map_eq_some'.mp h with ⟨e, he, rfl⟩
    rw [find?_append_of_some _ _ _ _ he]
    rfl

theorem mapGet_addPinsToMap (pins : List Pin) (m : List (String × Pin)) (k : String)
    (p : Pin) (h : mapGet m k = some p) : mapGet (addPinsToMap m pins) k = some p := by
  induction pins generalizing m with
  | nil => exact h
  | cons q qs ih =>
    simp only [addPinsToMap, List.foldl_cons]
    exact ih _ (mapGet_addPinStep m q k p h)

end Harvest

/-- C2: merging an extracted record list into the harvester's accumulator
(`addPinsToMap`, content.js 186-193 / part_001 198-205) is idempotent —
re-merging the same list changes neither the keys nor any stored record —
and first-seen wins: a record already stored under a key is never
replaced by a later merge. -/
theorem addPinsToMap_idempotent_first_seen
    (m : List (String × PinHelper.Pin)) (pins : List PinHelper.Pin) :
    Harvest.addPinsToMap (Harvest.addPinsToMap m pins) pins = Harvest.addPinsToMap m pins ∧
    ∀ k p, Harvest.mapGet m k = some p →
      Harvest.mapGet (Harvest.addPinsToMap m pins) k = some p := by
  constructor
  · exact Harvest.addPinsToMap_eq_of_all pins _
      (fun pin hmem => Harvest.hasKey_addPinsToMap_of_mem pins m pin hmem)
  · exact fun k p h => Harvest.mapGet_addPinsToMap pins m k p h

/-- A sample record for concrete checks. -/
def samplePinA : PinHelper.Pin :=
  { title := "A", imageUrl := "https://i.pinimg.com/a.jpg", videoUrl := none,
    link := "https://www.pinterest.com/pin/1/", description := "first" }

/-- A later duplicate of `samplePinA` (same identity key, new content). -/
def samplePinB : PinHelper.Pin :=
  { title := "B", imageUrl := "https://i.pinimg.com/b.jpg", videoUrl := none,
    link := "https://www.pinterest.com/pin/1/", description := "second" }

/-- Witness for C2: with record A already stored under its key, merging a
list containing a later duplicate B leaves A stored. -/
theorem addPinsToMap_idempotent_first_seen_witness :
    Harvest.mapGet
      (Harvest.addPinsToMap [(samplePinA.link, samplePinA)] [samplePinB])
      samplePinA.link = some samplePinA :=
  (addPinsToMap_idempotent_first_seen [(samplePinA.link, samplePinA)] [samplePinB]).2
    samplePinA.link samplePinA (by decide)

namespace Orchestrator

theorem processOne_eq_none_iff {α : Type} (u : Bool) (prefs : String)
    (e : ItemEnv) (pin : α) :
    processOne u prefs e pin = none ↔ (u = true ∧ e.payload = none) := by
  cases u with
  | false =>
    simp only [processOne, Bool.false_eq_true, false_and, iff_false, if_false]
    by_cases ht : e.throwsDuringProcessing
    · simp [ht]
    · cases hl : e.lensText <;> simp [ht, hl]
  | true =>
    simp only [processOne, if_true, true_and]
    cases hp : e.payload with
    | none => simp
    | some b =>
      simp only [reduceCtorEq, iff_false]
      by_cases ht : e.throwsDuringProcessing
      · simp [ht]
      · cases ha : e.analyzeResult with
        | none => simp [ht, ha]
        | some entries =>
          by_cases he : entries.isEmpty <;> simp [ht, ha, he]

theorem processOne_pin_eq {α : Type} (u : Bool) (prefs : String) (e : ItemEnv)
    (pin : α) (r : ProcessedPin α) (h : processOne u prefs e pin = some r) :
    r.pin = pin := by
  unfold processOne at h
  cases u with
  | false =>
    simp only [Bool.false_eq_true, if_false] at h
    by_cases ht : e.throwsDuringProcessing
    · simp [ht] at h; rw [← h]
    · cases hl : e.lensText <;> simp [ht, hl] at h <;> rw [← h]
  | true =>
    simp only [if_true] at h
    cases hp : e.payload with
    | none => rw [hp] at h; cases h
    | some b =>
      rw [hp] at h
      by_cases ht : e.throwsDuringProcessing
      · simp [ht] at h; rw [← h]
      · cases ha : e.analyzeResult with
        | none => simp [ht, ha] at h; rw [← h]
        | some entries =>
          by_cases he : entries.isEmpty <;> simp [ht, ha, he] at h <;> rw [← h]

theorem keptPins_false {α : Type} (env : ℕ → ItemEnv) (pins : List α) (i : ℕ) :
    keptPins false env pins i = pins := by
  induction pins generalizing i with
  | nil => rfl
  | cons pin rest ih => simp [keptPins, ih]

theorem startBackgroundExport_map_pin {α : Type} (u : Bool) (prefs : String)
    (env : ℕ → ItemEnv) (pins : List α) (i : ℕ) :
    (startBackgroundExport u prefs env pins i).map ProcessedPin.pin =
      keptPins u env pins i := by
  induction pins generalizing i with
  | nil => rfl
  | cons pin rest ih =>
    by_cases hk : u && (env i).payload.isNone
    · have hnone : processOne u prefs (env i) pin = (none : Option (ProcessedPin α)) := by
        rw [processOne_eq_none_iff]
        exact ⟨(Bool.and_eq_true_iff.mp hk).1,
          Option.isNone_iff_eq_none.mp (Bool.and_eq_true_iff.mp hk).2⟩
      simp only [startBackgroundExport, keptPins, hnone, if_pos hk]
      exact ih (i + 1)
    · cases hp : processOne u prefs (env i) pin with
      | none =>
        rcases (processOne_eq_none_iff u prefs (env i) pin).mp hp with ⟨h1, h2⟩
        exact absurd (by simp [h1, h2]) hk
      | some r =>
        simp only [startBackgroundExport, keptPins, hp, if_neg hk, List.map_cons]
        rw [processOne_pin_eq u prefs (env i) pin r hp]
        rw [ih (i + 1)]

end Orchestrator

/-- C1 (amended): the export loop `startBackgroundExport` (background
script part_000, lines 34-94) is only partially N-preserving.  The
records of the output are exactly the input records except that, on the
Gemini path, a record whose image payload cannot be obtained is dropped
(`continue` at line 52 skips the push); records whose enrichment call
returns null/empty or raises are still present, and on the Lens path
every input record is present, so without the inference service the
output always has exactly N records. -/
theorem startBackgroundExport_partial_failure {α : Type} (u : Bool)
    (prefs : String) (env : ℕ → Orchestrator.ItemEnv) (pins : List α) (i : ℕ) :
    ((Orchestrator.startBackgroundExport u prefs env pins i).map
        Orchestrator.ProcessedPin.pin = Orchestrator.keptPins u env pins i) ∧
    (Orchestrator.startBackgroundExport false prefs env pins i).length =
      pins.length := by
  refine ⟨Orchestrator.startBackgroundExport_map_pin u prefs env pins i, ?_⟩
  have h := Orchestrator.startBackgroundExport_map_pin false prefs env pins i
  rw [Orchestrator.keptPins_false] at h
  calc (Orchestrator.startBackgroundExport false prefs env pins i).length
      = ((Orchestrator.startBackgroundExport false prefs env pins i).map
          Orchestrator.ProcessedPin.pin).length := (List.length_map _ _).symm
    _ = pins.length := by rw [h]

/-- C1 counterexample: one selected record whose image payload cannot be
obtained (`downloadImageAsBase64` returns null) on the Gemini path — the
output list is empty, not of length 1, so the record is NOT retained
unenriched as the claim states. -/
theorem startBackgroundExport_drops_payload_failure :
    (Orchestrator.startBackgroundExport true ""
        (fun _ => ⟨none, false, none, none⟩) ([()] : List Unit) 0).length = 0 ∧
    (0 : ℕ) ≠ 1 :=
  ⟨rfl, by decide⟩

namespace Harvest

theorem getPinsLoop_terminates_aux (heights : ℕ → ℚ) (v : ℚ)
    (extract : ℚ → List Pin) (hv : 0 < v)
    (hmono : ∀ i j, i ≤ j → heights j ≤ heights i) :
    ∀ (fuel t : ℕ) (pos : ℚ) (acc : List (String × Pin)),
      heights 0 - 50 - v - pos ≤ fuel * scrollStep v →
      ∃ n acc2, n ≤ fuel ∧
        getPinsLoop heights v extract (fuel + 1) t pos acc = some (n, acc2) := by
  intro fuel
  induction fuel with
  | zero =>
    intro t pos acc hb
    have h0 : heights t ≤ heights 0 := hmono 0 t (Nat.zero_le t)
    have hb0 : heights 0 - 50 - v - pos ≤ 0 := by simpa using hb
    have hcond : v + pos ≥ heights t - 50 := by linarith
    have hset : heights (t + 1) ≤ heights t := hmono t (t + 1) (Nat.le_succ t)
    refine ⟨0, addPinsToMap acc (extract pos), le_refl 0, ?_⟩
    simp only [getPinsLoop]
    rw [if_pos hcond, if_neg (not_lt.mpr hset)]
  | succ fuel ih =>
    intro t pos acc hb
    by_cases hcond : v + pos ≥ heights t - 50
    · have hset : heights (t + 1) ≤ heights t := hmono t (t + 1) (Nat.le_succ t)
      refine ⟨0, addPinsToMap acc (extract pos), Nat.zero_le _, ?_⟩
      simp only [getPinsLoop]
      rw [if_pos hcond, if_neg (not_lt.mpr hset)]
    · have hstep : 0 < scrollStep v := by
        unfold scrollStep; positivity
      have hb2 : heights 0 - 50 - v - (pos + scrollStep v) ≤ fuel * scrollStep v := by
        push_cast at hb
        linarith
      obtain ⟨n, acc2, hn, heq⟩ := ih (t + 1) (pos + scrollStep v)
        (addPinsToMap acc (extract (pos + scrollStep v))) hb2
      refine ⟨n + 1, acc2, Nat.succ_le_succ hn, ?_⟩
      rw [show getPinsLoop heights v extract (fuel + 1 + 1) t pos acc =
            if v + pos ≥ heights t - 50 then
              (if heights (t + 1) > heights t then
                (getPinsLoop heights v extract (fuel + 1) (t + 2) pos acc).map
                  (fun r => (r.1 + 1, r.2))
              else some (0, addPinsToMap acc (extract pos)))
            else
              (getPinsLoop heights v extract (fuel + 1) (t + 1) (pos + scrollStep v)
                  (addPinsToMap acc (extract (pos + scrollStep v)))).map
                (fun r => (r.1 + 1, r.2))
          from rfl]
      rw [if_neg hcond, heq]
      rfl

end Harvest

/-- C3: on a surface whose reported total extent never grows, the
harvester loop of `getPins` terminates through its final-extraction exit,
within a number of iterations bounded by `⌈extent / step⌉` — a linear
function of the total extent divided by the scroll step
(`getPinsBound h0 v = ⌈h0 / (v * 0.6)⌉`). -/
theorem getPins_terminates (heights : ℕ → ℚ) (v : ℚ) (extract : ℚ → List PinHelper.Pin)
    (hv : 0 < v) (hfixed : ∀ i j, i ≤ j → heights j ≤ heights i) :
    ∃ n acc, n ≤ Harvest.getPinsBound (heights 0) v ∧
      Harvest.getPinsLoop heights v extract
        (Harvest.getPinsBound (heights 0) v + 1) 0 0 [] = some (n, acc) := by
  have hstep : 0 < Harvest.scrollStep v := by
    unfold Harvest.scrollStep; positivity
  have hCeil : heights 0 / Harvest.scrollStep v ≤
      (Harvest.getPinsBound (heights 0) v : ℚ) := Nat.le_ceil _
  have hb : heights 0 - 50 - v - 0 ≤
      (Harvest.getPinsBound (heights 0) v : ℚ) * Harvest.scrollStep v := by
    rw [div_le_iff₀ hstep] at hCeil
    linarith
  obtain ⟨n, acc2, hn, heq⟩ := Harvest.getPinsLoop_terminates_aux heights v extract hv
    hfixed (Harvest.getPinsBound (heights 0) v) 0 0 [] hb
  exact ⟨n, acc2, hn, heq⟩

/-- Witness for C3: a concrete surface with fixed extent 1000 and
viewport 100 reaches the final-extraction exit within the bound. -/
theorem getPins_terminates_witness :
    ∃ n acc, n ≤ Harvest.getPinsBound ((fun _ => (1000 : ℚ)) 0) 100 ∧
      Harvest.getPinsLoop (fun _ => (1000 : ℚ)) 100 (fun _ => [])
        (Harvest.getPinsBound ((fun _ => (1000 : ℚ)) 0) 100 + 1) 0 0 [] =
        some (n, acc) :=
  getPins_terminates (fun _ => (1000 : ℚ)) 100 (fun _ => []) (by norm_num)
    (fun i j _ => le_refl _)

namespace Gemini

theorem analyzeLoop_none_or_success (env : ℕ → AttemptOutcome) :
    ∀ rem attempts : ℕ,
      (analyzeLoop env rem attempts).2 = none ∨
      ∃ i, attempts ≤ i ∧ i < attempts + rem ∧
        ∃ r, env i = AttemptOutcome.resp r ∧ r.ok = true := by
  intro rem
  induction rem with
  | zero => intro attempts; exact Or.inl rfl
  | succ rem ih =>
    intro attempts
    cases henv : env attempts with
    | throws =>
      by_cases hr : rem = 0
      · subst hr
        left
        simp [analyzeLoop, henv]
      · rcases ih (attempts + 1) with hnone | ⟨i, hi1, hi2, hr2⟩
        · left
          simp [analyzeLoop, henv, hr, hnone]
        · exact Or.inr ⟨i, by omega, by omega, hr2⟩
    | resp r =>
      by_cases hok : r.ok
      · exact Or.inr ⟨attempts, le_refl _, by omega, r, henv, hok⟩
      · by_cases h429 : r.status = 429
        · rcases ih (attempts + 1) with hnone | ⟨i, hi1, hi2, hr2⟩
          · left
            simp [analyzeLoop, henv, hok, h429, hnone]
          · exact Or.inr ⟨i, by omega, by omega, hr2⟩
        · left
          simp [analyzeLoop, henv, hok, h429]

theorem identifyLoop_none_or_success (env : ℕ → AttemptOutcome) (base64Data : String) :
    ∀ rem attempts : ℕ,
      (identifyLoop env base64Data rem attempts).2 = none ∨
      ∃ i, attempts ≤ i ∧ i < attempts + rem ∧
        ∃ r, env i = AttemptOutcome.resp r ∧ r.ok = true := by
  intro rem
  induction rem with
  | zero => intro attempts; exact Or.inl rfl
  | succ rem ih =>
    intro attempts
    cases henv : env attempts with
    | throws =>
      by_cases hr : rem = 0
      · subst hr
        left
        simp [identifyLoop, henv]
      · rcases ih (attempts + 1) with hnone | ⟨i, hi1, hi2, hr2⟩
        · left
          simp [identifyLoop, henv, hr, hnone]
        · exact Or.inr ⟨i, by omega, by omega, hr2⟩
    | resp r =>
      by_cases hok : r.ok
      · exact Or.inr ⟨attempts, le_refl _, by omega, r, henv, hok⟩
      · by_cases h429 : r.status = 429
        · rcases ih (attempts + 1) with hnone | ⟨i, hi1, hi2, hr2⟩
          · left
            simp [identifyLoop, henv, hok, h429, hnone]
          · exact Or.inr ⟨i, by omega, by omega, hr2⟩
        · left
          simp [identifyLoop, henv, hok, h429]

end Gemini

/-- C4: the Enrichment Client never lets an error escape as an exception
(the embedded functions are total: every `throws` outcome is absorbed by
the `try/catch` structure mirrored from the source) and it returns a
non-null value only when some attempt within the cap received a
successful response — so exhausted retries, terminal HTTP failures,
transport exceptions on the final attempt and payload-preparation
failures all end in `null`. -/
theorem enrichment_client_null_on_failure (env : ℕ → Gemini.AttemptOutcome)
    (base64Data apiKey : String) (payload : Gemini.PayloadOutcome) :
    ((Gemini.analyzeImageAndGetShoppingLinks env base64Data apiKey).2 = none ∨
      ∃ i, i < 4 ∧ ∃ r, env i = Gemini.AttemptOutcome.resp r ∧ r.ok = true) ∧
    ((Gemini.identifyItemWithGemini env payload apiKey).2 = none ∨
      ∃ i, i < 3 ∧ ∃ r, env i = Gemini.AttemptOutcome.resp r ∧ r.ok = true) := by
  constructor
  · unfold Gemini.analyzeImageAndGetShoppingLinks
    split
    · exact Or.inl rfl
    · rcases Gemini.analyzeLoop_none_or_success env 4 0 with h | ⟨i, _, hi2, hr⟩
      · exact Or.inl h
      · exact Or.inr ⟨i, by omega, hr⟩
  · unfold Gemini.identifyItemWithGemini
    split
    · exact Or.inl rfl
    · cases payload with
      | fail => exact Or.inl rfl
      | ok b =>
        rcases Gemini.identifyLoop_none_or_success env b 3 0 with h | ⟨i, _, hi2, hr⟩
        · exact Or.inl h
        · exact Or.inr ⟨i, by omega, hr⟩

/-- C6 (amended): on a rate-limit (429) response at attempt counter `a`,
`identifyItemWithGemini` (and `searchAllShoppingUrlsWithGemini`) pause
for `identifyRetryWaitMs` — the advisory-derived duration when the
advisory message is present, else `2000·2^a` — but
`analyzeImageAndGetShoppingLinks` always pauses `analyzeRetryWaitMs a =
3000·2^a`, ignoring any advisory message. -/
theorem rateLimit_wait_spec (env : ℕ → Gemini.AttemptOutcome)
    (r : Gemini.Response) (rem attempts : ℕ) (base64Data : String)
    (henv : env attempts = Gemini.AttemptOutcome.resp r)
    (hok : r.ok = false) (hst : r.status = 429) :
    (Gemini.analyzeLoop env (rem + 1) attempts).1.head? =
      some (Gemini.analyzeRetryWaitMs attempts) ∧
    (Gemini.identifyLoop env base64Data (rem + 1) attempts).1.head? =
      some (Gemini.identifyRetryWaitMs r.advisorySeconds attempts) := by
  constructor
  · simp [Gemini.analyzeLoop, henv, hok, hst]
  · simp [Gemini.identifyLoop, henv, hok, hst]

/-- Witness for C6 (amended) at a concrete 429 environment. -/
theorem rateLimit_wait_spec_witness :
    (Gemini.analyzeLoop
        (fun _ => Gemini.AttemptOutcome.resp ⟨false, 429, some 1, none⟩)
        (3 + 1) 0).1.head? = some (Gemini.analyzeRetryWaitMs 0) ∧
    (Gemini.identifyLoop
        (fun _ => Gemini.AttemptOutcome.resp ⟨false, 429, some 1, none⟩)
        "img" (3 + 1) 0).1.head? =
      some (Gemini.identifyRetryWaitMs (some 1) 0) :=
  rateLimit_wait_spec (fun _ => Gemini.AttemptOutcome.resp ⟨false, 429, some 1, none⟩)
    ⟨false, 429, some 1, none⟩ 3 0 "img" rfl rfl rfl

/-- C6 counterexample: a 429 response carrying the advisory
`retry in 1 s` — the unified client's first pause is the 3000 ms
exponential backoff, not the 2000 ms derived from the advisory message,
so the advisory is not used even when present. -/
theorem analyze_ignores_advisory :
    (Gemini.analyzeImageAndGetShoppingLinks
        (fun _ => Gemini.AttemptOutcome.resp ⟨false, 429, some 1, none⟩)
        "img" "key").1.head? = some 3000 ∧
    Gemini.identifyRetryWaitMs (some 1) 0 = 2000 ∧ (3000 : ℤ) ≠ 2000 := by
  refine ⟨by decide, ?_, by decide⟩
  show (⌈(1 : ℚ) * 1000⌉ + 1000 : ℤ) = 2000
  norm_num

/-- C7: the rate-limit wait computed from the attempt count is monotone
in the attempt count, for both retry formulas (`3000·2^a` of the unified
client, `2000·2^a` of the identify/search clients). -/
theorem backoff_monotone (a1 a2 : ℕ) (h : a1 < a2) :
    Gemini.analyzeRetryWaitMs a1 ≤ Gemini.analyzeRetryWaitMs a2 ∧
    Gemini.identifyRetryWaitMs none a1 ≤ Gemini.identifyRetryWaitMs none a2 := by
  have hp : (2 : ℤ) ^ a1 ≤ 2 ^ a2 := pow_le_pow_right₀ (by norm_num) h.le
  constructor
  · exact mul_le_mul_of_nonneg_left hp (by norm_num)
  · exact mul_le_mul_of_nonneg_left hp (by norm_num)

/-- Witness for C7 at attempts 0 < 1. -/
theorem backoff_monotone_witness :
    Gemini.analyzeRetryWaitMs 0 ≤ Gemini.analyzeRetryWaitMs 1 ∧
    Gemini.identifyRetryWaitMs none 0 ≤ Gemini.identifyRetryWaitMs none 1 :=
  backoff_monotone 0 1 (by decide)

/-- C8 (amended): the parse step of the unified client returns the
parsed array exactly when the substring spanning from the first `[` of
the response text to its last `]` parses as JSON to a non-empty array;
in every other case (no such span, a span that fails to parse, a parsed
value that is not an array, or an empty array) it returns null.  The
regex is greedy, so an inner well-formed fragment that is not this whole
span is never considered. -/
theorem parseShopping_iff (text : String) (xs : List Json.Value) :
    Gemini.parseShoppingLinksText text = some xs ↔
    ∃ frag, Gemini.bracketFragment text = some frag ∧
      Json.jsonParse frag = some (Json.Value.arr xs) ∧ xs ≠ [] := by
  unfold Gemini.parseShoppingLinksText
  split
  next hb => simp [hb]
  next frag hb =>
    split
    next elems hj =>
      by_cases he : elems.isEmpty
      · have hnil : elems = [] := by simpa using he
        rw [if_pos he]
        constructor
        · intro h
          cases h
        · rintro ⟨frag1, hfrag, hparse, hxs⟩
          rw [hb] at hfrag
          obtain rfl : frag = frag1 := by simpa using hfrag
          rw [hj] at hparse
          obtain rfl : elems = xs := by simpa using hparse
          exact absurd hnil hxs
      · have hne : elems ≠ [] := by simpa using he
        rw [if_neg he]
        constructor
        · intro h
          obtain rfl : elems = xs := by simpa using h
          exact ⟨frag, hb, hj, hne⟩
        · rintro ⟨frag1, hfrag, hparse, hxs⟩
          rw [hb] at hfrag
          obtain rfl : frag = frag1 := by simpa using hfrag
          rw [hj] at hparse
          obtain rfl : elems = xs := by simpa using hparse
          rfl
    next v hno =>
      constructor
      · intro h
        cases h
      · rintro ⟨frag1, hfrag, hparse, hxs⟩
        rw [hb] at hfrag
        obtain rfl : frag = frag1 := by simpa using hfrag
        exact absurd hparse (by intro hp; exact hno xs hp)

/-- C8 counterexample: the response text `[true] []` contains the
well-formed non-empty JSON array fragment `[true]`, yet the parse step
returns null — the greedy regex spans from the first `[` to the last
`]`, producing `[true] []`, which is not valid JSON. -/
theorem parseShopping_misses_inner_fragment :
    "[true] []" = "" ++ "[true]" ++ " []" ∧
    Json.jsonParse "[true]" = some (Json.Value.arr [Json.Value.bool true]) ∧
    Gemini.bracketFragment "[true] []" = some "[true] []" ∧
    Gemini.parseShoppingLinksText "[true] []" = none :=
  ⟨rfl, rfl, rfl, rfl⟩

/-- A sample rendered surface: one pin anchor on the board page
`/user/summer-fits/` whose qualifying image carries the boilerplate alt
text `via @someuser`. -/
def viaSamplePage : Extract.PageEnv :=
  { anchors := [{ href := "/pin/123/",
                  ariaLabel := none,
                  titleText := none,
                  descriptionText := none,
                  images := [{ dataPinMedia := none, dataSrc := none,
                               currentSrc := none,
                               src := some "https://i.pinimg.com/x.jpg",
                               srcset := none,
                               alt := some "via @someuser",
                               ariaLabel := none }],
                  video := none }],
    pathname := "/user/summer-fits/",
    parseUrl := fun s =>
      if s = "/pin/123/" then
        some { href := "https://www.pinterest.com/pin/123/",
               hostname := "www.pinterest.com" }
      else if s = "https://i.pinimg.com/x.jpg" then
        some { href := "https://i.pinimg.com/x.jpg",
               hostname := "i.pinimg.com" }
      else none }

/-- C5 counterexample: `via @someuser` matches a known boilerplate
pattern (part_001 filters it), yet the content.js extractor resolves
exactly that string as the record title — its `generateSmartTitle` has
no `via @` filter.  The part_001 variant falls back to the board name
on the very same surface. -/
theorem extractV1_keeps_via_title :
    (Extract.extractVisiblePinsV1 viaSamplePage).map PinHelper.Pin.title =
      ["via @someuser"] ∧
    Extract.matchesGenericV2 ("via @someuser").toList = true ∧
    (Extract.extractVisiblePinsV2 viaSamplePage).map PinHelper.Pin.title =
      ["Summer fits Pin"] := by
  refine ⟨by decide, by decide, by decide⟩

/-- C5 (amended): in the part_001 extractor, every title matching one of
its generic boilerplate patterns is discarded by `generateSmartTitle`
(which returns null, so the title falls through to the board-name
fallback); the content.js variant filters the image-of / no-description
boilerplate but not `via @handle`, which it keeps verbatim. -/
theorem generateSmartTitle_rejects_generic (text : String)
    (h : Extract.matchesGenericV2 text.toList = true) :
    Extract.generateSmartTitleV2 text = none := by
  unfold Extract.generateSmartTitleV2
  by_cases he : text.isEmpty
  · rw [if_pos he]
  · rw [if_neg he, if_pos h]

/-- Witness for C5 (amended) at the boilerplate title
`No description available.`. -/
theorem generateSmartTitle_rejects_generic_witness :
    Extract.generateSmartTitleV2 "No description available." = none :=
  generateSmartTitle_rejects_generic "No description available." (by decide)

namespace Extract

theorem imagePin_some
    (build : PageEnv → AnchorEl → String → String → String → ImgEl → String → Pin)
    (env : PageEnv) (anchor : AnchorEl) (u bt d : String) (img : ImgEl) (pin : Pin)
    (h : imagePin build env anchor u bt d img = some pin) :
    shouldIncludeImage env (resolveImageUrl img) = true ∧
    pin = build env anchor u bt d img (resolveImageUrl img) := by
  unfold imagePin at h
  split at h
  next => cases h
  next hc =>
    constructor
    · simpa using hc
    · exact (Option.some.inj h).symm

theorem mem_extract
    (build : PageEnv → AnchorEl → String → String → String → ImgEl → String → Pin)
    (env : PageEnv) (pin : Pin)
    (h : pin ∈ env.anchors.flatMap (anchorPins build env)) :
    ∃ anchor u bt d img,
      pin = build env anchor u bt d img (resolveImageUrl img) ∧
      shouldIncludeImage env (resolveImageUrl img) = true := by
  rw [List.mem_flatMap] at h
  obtain ⟨anchor, hA, hpin⟩ := h
  unfold anchorPins at hpin
  split at hpin
  next => cases hpin
  next absoluteUrl heq =>
    split at hpin
    next => cases hpin
    next =>
      rw [List.mem_filterMap] at hpin
      obtain ⟨img, hI, himg⟩ := hpin
      obtain ⟨hinc, rfl⟩ := imagePin_some build env anchor _ _ _ img pin himg
      exact ⟨anchor, absoluteUrl, _, _, img, rfl, hinc⟩

theorem buildPinV1_imageUrl (env : PageEnv) (anchor : AnchorEl)
    (u bt d : String) (img : ImgEl) (iu : String) :
    (buildPinV1 env anchor u bt d img iu).imageUrl = iu := rfl

theorem buildPinV2_imageUrl (env : PageEnv) (anchor : AnchorEl)
    (u bt d : String) (img : ImgEl) (iu : String) :
    (buildPinV2 env anchor u bt d img iu).imageUrl = iu := rfl

theorem buildPinV1_title (env : PageEnv) (anchor : AnchorEl)
    (u bt d : String) (img : ImgEl) (iu : String) :
    (buildPinV1 env anchor u bt d img iu).title =
      match generateSmartTitleV1
          (Js.firstNonempty [resolveItemTitle img bt anchor, bt]) with
      | some t => t
      | none => getBoardNameV1 env.pathname ++ " Pin" := rfl

theorem buildPinV2_title (env : PageEnv) (anchor : AnchorEl)
    (u bt d : String) (img : ImgEl) (iu : String) :
    (buildPinV2 env anchor u bt d img iu).title =
      match generateSmartTitleV2
          (Js.firstNonempty [resolveItemTitle img bt anchor, bt]) with
      | some t => t
      | none => getBoardNameV2 env.pathname ++ " Pin" := rfl

theorem dropWhile_head_false (p : Char → Bool) :
    ∀ (l : List Char) (c : Char) (rest : List Char),
      l.dropWhile p = c :: rest → p c = false := by
  intro l
  induction l with
  | nil => intro c rest h; cases h
  | cons a as ih =>
    intro c rest h
    rw [List.dropWhile_cons] at h
    by_cases hpa : p a
    · rw [if_pos hpa] at h
      exact ih c rest h
    · rw [if_neg hpa] at h
      obtain ⟨rfl, -⟩ := List.cons.inj h
      simpa using hpa

theorem wordsOfAux_forall_ne_nil :
    ∀ (n : ℕ) (cs w : List Char), w ∈ wordsOfAux n cs → w ≠ [] := by
  intro n
  induction n with
  | zero => intro cs w h; cases h
  | succ n ih =>
    intro cs w h
    unfold wordsOfAux at h
    split at h
    next => cases h
    next c rest heq =>
      rcases List.mem_cons.mp h with rfl | hmem
      · have hc : Char.isWhitespace c = false := dropWhile_head_false _ cs c rest heq
        rw [List.takeWhile_cons, if_pos (by simp [hc])]
        simp
      · exact ih _ w hmem

theorem joinWords_ne_nil (ws : List (List Char)) (h1 : ws ≠ [])
    (h2 : ∀ w ∈ ws, w ≠ []) : joinWords ws ≠ [] := by
  match ws with
  | [] => exact absurd rfl h1
  | [w] =>
    show w ≠ []
    exact h2 w (by simp)
  | w :: x :: rest =>
    show w ++ ' ' :: joinWords (x :: rest) ≠ []
    intro hc
    exact List.cons_ne_nil _ _ (List.append_eq_nil.mp hc).2

theorem smartTail_ne_empty (cs : List Char) (k : ℕ)
    (hlen : ¬(joinWords (wordsOf cs)).length < 2) :
    String.mk (joinWords ((wordsOf cs).take (k + 1))) ≠ "" := by
  have hws : wordsOf cs ≠ [] := by
    intro hnil
    rw [hnil] at hlen
    simp [joinWords] at hlen
  have htake : (wordsOf cs).take (k + 1) ≠ [] := by
    cases hw : wordsOf cs with
    | nil => exact absurd hw hws
    | cons a l => simp [hw]
  have hall : ∀ w ∈ (wordsOf cs).take (k + 1), w ≠ [] :=
    fun w hw => wordsOfAux_forall_ne_nil _ cs w (List.take_subset _ _ hw)
  have hjoin := joinWords_ne_nil _ htake hall
  intro hs
  exact hjoin (by simpa using congrArg String.data hs)

theorem generateSmartTitleV1_ne_empty (text t : String)
    (h : generateSmartTitleV1 text = some t) : t ≠ "" := by
  simp only [generateSmartTitleV1] at h
  split at h
  next => cases h
  next =>
    split at h
    next => cases h
    next hlen =>
      obtain rfl := Option.some.inj h
      exact smartTail_ne_empty _ 4 hlen

theorem generateSmartTitleV2_ne_empty (text t : String)
    (h : generateSmartTitleV2 text = some t) : t ≠ "" := by
  simp only [generateSmartTitleV2] at h
  split at h
  next => cases h
  next =>
    split at h
    next => cases h
    next =>
      split at h
      next => cases h
      next hlen =>
        obtain rfl := Option.some.inj h
        exact smartTail_ne_empty _ 5 hlen

theorem boardFallback_ne_empty (b : String) : b ++ " Pin" ≠ "" := by
  intro h
  have hl := congrArg String.length h
  rw [String.length_append] at hl
  simp at hl
  exact absurd hl.2 (by decide)

theorem buildPinV1_title_ne_empty (env : PageEnv) (anchor : AnchorEl)
    (u bt d : String) (img : ImgEl) (iu : String) :
    (buildPinV1 env anchor u bt d img iu).title ≠ "" := by
  rw [buildPinV1_title]
  cases hg : generateSmartTitleV1
      (Js.firstNonempty [resolveItemTitle img bt anchor, bt]) with
  | none => exact boardFallback_ne_empty _
  | some t => exact generateSmartTitleV1_ne_empty _ t hg

theorem buildPinV2_title_ne_empty (env : PageEnv) (anchor : AnchorEl)
    (u bt d : String) (img : ImgEl) (iu : String) :
    (buildPinV2 env anchor u bt d img iu).title ≠ "" := by
  rw [buildPinV2_title]
  cases hg : generateSmartTitleV2
      (Js.firstNonempty [resolveItemTitle img bt anchor, bt]) with
  | none => exact boardFallback_ne_empty _
  | some t => exact generateSmartTitleV2_ne_empty _ t hg

end Extract

/-- C9: the extractor's media-host filter.  An empty, unparseable, or
other-host image URL is discarded (`shouldIncludeImage` is false), and
every record the extractor outputs carries an image URL that passes the
filter — i.e. one that parses as a URL whose hostname contains
`pinimg.com`. -/
theorem extract_requires_media_host (env : Extract.PageEnv) :
    (Extract.shouldIncludeImage env "" = false) ∧
    (∀ url, url ≠ "" → env.parseUrl url = none →
      Extract.shouldIncludeImage env url = false) ∧
    (∀ url parts, env.parseUrl url = some parts →
      Js.containsStr parts.hostname "pinimg.com" = false →
      Extract.shouldIncludeImage env url = false) ∧
    (∀ pin ∈ Extract.extractVisiblePinsV1 env,
      Extract.shouldIncludeImage env pin.imageUrl = true) ∧
    (∀ pin ∈ Extract.extractVisiblePinsV2 env,
      Extract.shouldIncludeImage env pin.imageUrl = true) := by
  refine ⟨rfl, ?_, ?_, ?_, ?_⟩
  · intro url hne h
    unfold Extract.shouldIncludeImage
    rw [if_neg (fun hh => hne ((String.isEmpty_iff url).mp hh)), h]
  · intro url parts h hc
    unfold Extract.shouldIncludeImage
    split
    · rfl
    · rw [h]
      exact hc
  · intro pin hmem
    obtain ⟨anchor, u, bt, d, img, rfl, hinc⟩ :=
      Extract.mem_extract Extract.buildPinV1 env pin hmem
    rw [Extract.buildPinV1_imageUrl]
    exact hinc
  · intro pin hmem
    obtain ⟨anchor, u, bt, d, img, rfl, hinc⟩ :=
      Extract.mem_extract Extract.buildPinV2 env pin hmem
    rw [Extract.buildPinV2_imageUrl]
    exact hinc

/-- Witness for C9: the sample surface's extracted record carries a
qualifying (pinimg.com) image URL. -/
theorem extract_requires_media_host_witness :
    ∃ pin, pin ∈ Extract.extractVisiblePinsV1 viaSamplePage ∧
      Extract.shouldIncludeImage viaSamplePage pin.imageUrl = true := by
  refine ⟨{ title := "via @someuser", imageUrl := "https://i.pinimg.com/x.jpg",
            videoUrl := none, link := "https://www.pinterest.com/pin/123/",
            description := "via @someuser" }, by decide, ?_⟩
  exact (extract_requires_media_host viaSamplePage).2.2.2.1 _ (by decide)

/-- C10: every record produced by either extractor variant has a
non-empty title — when no usable title survives the generic-phrase
filter and length checks, the title is the board-name fallback
`<board> Pin` — even though the data model describes the title field as
possibly empty. -/
theorem extract_title_nonempty (env : Extract.PageEnv) :
    (∀ pin ∈ Extract.extractVisiblePinsV1 env, pin.title ≠ "") ∧
    (∀ pin ∈ Extract.extractVisiblePinsV2 env, pin.title ≠ "") := by
  constructor
  · intro pin hmem
    obtain ⟨anchor, u, bt, d, img, rfl, -⟩ :=
      Extract.mem_extract Extract.buildPinV1 env pin hmem
    exact Extract.buildPinV1_title_ne_empty env anchor u bt d img _
  · intro pin hmem
    obtain ⟨anchor, u, bt, d, img, rfl, -⟩ :=
      Extract.mem_extract Extract.buildPinV2 env pin hmem
    exact Extract.buildPinV2_title_ne_empty env anchor u bt d img _

/-- Witness for C10: the sample surface's part_001 record falls back to
the board-name title `Summer fits Pin`, which is non-empty. -/
theorem extract_title_nonempty_witness :
    ∃ pin, pin ∈ Extract.extractVisiblePinsV2 viaSamplePage ∧ pin.title ≠ "" := by
  refine ⟨{ title := "Summer fits Pin", imageUrl := "https://i.pinimg.com/x.jpg",
            videoUrl := none, link := "https://www.pinterest.com/pin/123/",
            description := "" }, by decide, ?_⟩
  exact (extract_title_nonempty viaSamplePage).2 _ (by decide)

end PinHelper
